import Mathlib

/-!
Shallow embedding of `src/main.rs` (a Lisp-like tokenizer, reader and
evaluator).  Tokens are modelled as lists of characters (the Rust `Token`
struct carries only its text), the `HashMap<usize, SExp>` arena as an
association list with most-recent-insert first, the `VecDeque<usize>`
id stack (used only through `push_back`/`pop_back`, i.e. LIFO) as a list
with its head as the top, and the two reader panics (`expect`/`unwrap`
on a closing delimiter with no open container) as an explicit
`StackUnderflow` error value.  The recursive evaluator is embedded with
an explicit fuel parameter, the standard shallow embedding of general
recursion; totality of the Rust function corresponds to sufficient fuel
never being exhausted.
-/

/-- The double-quote character `"`. -/
def dquote : Char := Char.ofNat 34

/-- The single-quote character. -/
def squote : Char := Char.ofNat 39

/-- The backtick character. -/
def btick : Char := Char.ofNat 96

/-- A token's text (`Token.value` in the source). -/
abbrev Tok := List Char

/-- The delimiter characters of `AST::tokenize` (`main.rs` lines 143-147):
brace, bracket, paren, space, newline, double quote, single quote, `@`,
`~`, backtick.  The two match arms in the source list the same set, once
as one-character strings and once as characters. -/
def delimChars : List Char := ['{', '}', '[', ']', '(', ')', ' ', '\n', dquote, squote, '@', '~', btick]

/-- Whether a character is a tokenizer delimiter. -/
def isDelimChar (c : Char) : Bool := delimChars.contains c

/-- Whether a buffered token is exactly one of the one-character delimiter
strings (the first `match token.as_str()` in `AST::tokenize`). -/
def isDelimTok (t : Tok) : Bool :=
  match t with
  | [c] => isDelimChar c
  | _ => false

/-- One character step of the scanning loop of `AST::tokenize`
(`main.rs` lines 140-158).  The accumulator holds the buffered tokens in
reverse order, so its head is `strings.last()` of the source. -/
def scanStep (acc : List Tok) (c : Char) : List Tok :=
  match acc with
  | [] => [[c]]
  | t :: rest =>
    if isDelimTok t then [c] :: t :: rest
    else if isDelimChar c then [c] :: t :: rest
    else (t ++ [c]) :: rest

/-- The scanning phase of `AST::tokenize`: the buffered strings, in source
order, before whitespace filtering. -/
def scan (src : List Char) : List Tok := (List.foldl scanStep [] src).reverse

/-- Whether a scanned token is dropped by the whitespace filter of
`AST::tokenize` (`main.rs` line 164): exactly a single space, newline or
tab. -/
def isDroppedTok (t : Tok) : Bool := t == [' '] || t == ['\n'] || t == ['\t']

/-- `AST::tokenize` (`main.rs` lines 137-172): scan the characters into
buffered tokens, then drop the tokens that are exactly a single space,
newline or tab. -/
def AST.tokenize (src : List Char) : List Tok := (scan src).filter (fun t => !(isDroppedTok t))

/-- `Atom` (`main.rs` lines 18-27).  The `f64` payload of `Float` is
abstracted by the source text the float was parsed from: no claim
computes with float values, only with which variant is produced. -/
inductive Atom where
  | Symbol : Tok → Atom
  | Keyword : Tok → Atom
  | Int : Int → Atom
  | Float : Tok → Atom
  | String : Tok → Atom
  | Boolean : Bool → Atom
  | Reference : Nat → Atom
deriving Repr, DecidableEq

/-- Rust `str::parse::<i64>`: an optional single `+`/`-` sign followed by
a nonempty run of decimal digits, rejected when the value overflows the
`i64` range. -/
def parseI64 (t : Tok) : Option Int :=
  let p : Int × List Char :=
    match t with
    | '+' :: rest => (1, rest)
    | '-' :: rest => (-1, rest)
    | _ => (1, t)
  if p.2 = [] then none
  else if p.2.all Char.isDigit then
    let n : Nat := p.2.foldl (fun acc c => acc * 10 + (c.toNat - 48)) 0
    let v : Int := p.1 * n
    if -(2 ^ 63) ≤ v ∧ v ≤ 2 ^ 63 - 1 then some v else none
  else none

/-- Strip one leading `+` or `-`. -/
def splitSign (t : List Char) : List Char :=
  match t with
  | '+' :: rest => rest
  | '-' :: rest => rest
  | _ => t

/-- A nonempty run of decimal digits. -/
def allDigits1 (l : List Char) : Bool := !l.isEmpty && l.all Char.isDigit

/-- An optional exponent suffix `(e|E) sign? digits` of the Rust `f64`
grammar. -/
def expPart (l : List Char) : Bool :=
  match l with
  | [] => true
  | c :: rest => (c == 'e' || c == 'E') && allDigits1 (splitSign rest)

/-- The mantissa part of the Rust `f64` grammar:
`digits '.'? digits? exp?` or `'.' digits exp?`. -/
def numberOk (l : List Char) : Bool :=
  let ds := l.takeWhile Char.isDigit
  let rest := l.dropWhile Char.isDigit
  if ds.isEmpty then
    match rest with
    | '.' :: rest2 => allDigits1 (rest2.takeWhile Char.isDigit) && expPart (rest2.dropWhile Char.isDigit)
    | _ => false
  else
    match rest with
    | '.' :: rest2 => expPart (rest2.dropWhile Char.isDigit)
    | _ => expPart rest

/-- Recognizer for Rust `str::parse::<f64>`:
`sign? (inf | infinity | nan | number)`, case-insensitive on the named
forms. -/
def isF64Lit (t : Tok) : Bool :=
  let b := (splitSign t).map Char.toLower
  b == "inf".data || b == "infinity".data || b == "nan".data || numberOk b

/-- `Atom::infer` (`main.rs` lines 30-54): `true`/`false` literals first,
then `i64`, then `f64`, otherwise a `Symbol` holding the raw text.  The
Rust function wraps its result in `Some` on every path and `read`
immediately unwraps it, so the embedding is total. -/
def Atom.infer (t : Tok) : Atom :=
  if t = "true".data then Atom.Boolean true
  else if t = "false".data then Atom.Boolean false
  else
    match parseI64 t with
    | some v => Atom.Int v
    | none => if isF64Lit t then Atom.Float t else Atom.Symbol t

/-- `SExp` (`main.rs` lines 89-93): a tagged container with a kind string
(the `_type` field) and ordered children. -/
structure SExp where
  _type : String
  children : List Atom
deriving Repr, DecidableEq

/-- `SExp::new` (`main.rs` lines 96-110): map an opening token to the
kind string; the `panic!("Unsupported type")` arm is modelled as
`none`. -/
def SExp.new (t : Tok) : Option SExp :=
  if t = ['('] then some ⟨"exec", []⟩
  else if t = ['['] then some ⟨"vec", []⟩
  else if t = ['{'] then some ⟨"map", []⟩
  else if t = [dquote] then some ⟨"string", []⟩
  else if t = [squote] then some ⟨"list", []⟩
  else none

/-- `Atom`'s `Display` impl (`main.rs` lines 75-87).  `Float` renders as
its source text under the payload abstraction noted on `Atom`. -/
def atomDisplay : Atom → String
  | Atom.Boolean v => if v then "true" else "false"
  | Atom.Float s => String.mk s
  | Atom.Int v => toString v
  | Atom.Keyword s => String.mk s
  | Atom.Reference n => "%" ++ toString n
  | Atom.String s => String.mk s
  | Atom.Symbol s => String.mk s

/-- `SExp`'s `Display` impl (`main.rs` lines 117-129):
`"(" + _type + " " + children joined by spaces + ")"`. -/
def SExp.display (s : SExp) : String :=
  "(" ++ s._type ++ " " ++ String.intercalate " " (s.children.map atomDisplay) ++ ")"

/-- `AST` (`main.rs` lines 131-134): the arena, a `HashMap<usize, SExp>`
modelled as an association list, most recent insertion first. -/
structure AST where
  items : List (Nat × SExp)
deriving Repr, DecidableEq

/-- The reader's errors: the two panic sites of `AST::read`.
`StackUnderflow` is the `expect("No more items left")`/`unwrap()` pair on
a closing delimiter with empty stacks; `UnsupportedDelimiter` is the
`panic!` inside `SExp::new` (unreachable from `read`). -/
inductive ReadErr where
  | StackUnderflow
  | UnsupportedDelimiter
deriving Repr, DecidableEq

/-- The loop state of `AST::read` (`main.rs` lines 175-178): committed
items, the open-container stack `sexps` (head = innermost), the id
counter, and the reserved-id stack `ids` (head = innermost). -/
structure ReadState where
  items : List (Nat × SExp)
  sexps : List SExp
  id : Nat
  ids : List Nat
deriving Repr, DecidableEq

/-- `if let Some(sexp) = sexps.last_mut() { sexp.push(atom) }`: append an
atom to the children of the innermost open container, if any. -/
def pushChild (sexps : List SExp) (a : Atom) : List SExp :=
  match sexps with
  | [] => []
  | s :: rest => ⟨s._type, s.children ++ [a]⟩ :: rest

/-- One iteration of the token loop of `AST::read`
(`main.rs` lines 180-205), with the same arm order as the source match:
quote markers are no-ops; an opening delimiter records a
`Reference(id)` in the parent, reserves the id and pushes a fresh node;
a closing delimiter pops the innermost reserved id and innermost open
node and commits the node under that id (StackUnderflow when there is
none); any other token is inferred and appended to the innermost open
node, or discarded when none is open. -/
def readTok (st : ReadState) (t : Tok) : Except ReadErr ReadState :=
  if t = [dquote] then .ok st
  else if t = [squote] then .ok st
  else if t = ['('] ∨ t = ['['] ∨ t = ['{'] then
    match SExp.new t with
    | some s =>
      .ok ⟨st.items, s :: pushChild st.sexps (Atom.Reference st.id), st.id + 1, st.id :: st.ids⟩
    | none => .error ReadErr.UnsupportedDelimiter
  else if t = [')'] ∨ t = [']'] ∨ t = ['}'] then
    match st.ids, st.sexps with
    | i :: ids', s :: sexps' => .ok ⟨(i, s) :: st.items, sexps', st.id, ids'⟩
    | _, _ => .error ReadErr.StackUnderflow
  else .ok ⟨st.items, pushChild st.sexps (Atom.infer t), st.id, st.ids⟩

/-- Run the token loop of `AST::read` from a given state. -/
def readSteps : List Tok → ReadState → Except ReadErr ReadState
  | [], st => .ok st
  | t :: rest, st =>
    match readTok st t with
    | .error e => .error e
    | .ok st' => readSteps rest st'

/-- The initial state of `AST::read`: no items, no open containers, id
counter 0, no reserved ids. -/
def initState : ReadState := ⟨[], [], 0, []⟩

/-- `AST::read` (`main.rs` lines 174-208): run the loop over all tokens
and return the arena built from the committed items; open containers
left on the stack at end-of-input are discarded without any check. -/
def AST.read (tokens : List Tok) : Except ReadErr AST :=
  match readSteps tokens initState with
  | .error e => .error e
  | .ok st => .ok ⟨st.items⟩

/-- `ENV` (`main.rs` lines 211-221): the environment symbol table,
threaded through evaluation but never read or written. -/
structure ENV where
  vars : List (Atom × Atom)
deriving Repr, DecidableEq

/-- `ENV::new`. -/
def ENV.new : ENV := ⟨[]⟩

/-- The child loop of `eval` (`main.rs` lines 227-240), abstracted over
the recursive call `ev`: for each `Reference(n)` child, raise the running
maximum to `n`, recurse, and raise it to the returned subtree maximum;
other children are inert.  The second component collects the rendering
trace of the recursive calls, in order. -/
def evalAtoms (ev : Nat → Option (Nat × List SExp)) : List Atom → Nat → Option (Nat × List SExp)
  | [], maxPc => some (maxPc, [])
  | a :: rest, maxPc =>
    match a with
    | Atom.Reference n =>
      let m1 := if maxPc < n then n else maxPc
      match ev n with
      | none => none
      | some (localMax, tr) =>
        let m2 := if m1 < localMax then localMax else m1
        match evalAtoms ev rest m2 with
        | none => none
        | some (m, tr2) => some (m, tr ++ tr2)
    | _ => evalAtoms ev rest maxPc

/-- `eval` (`main.rs` lines 223-243) with explicit fuel bounding the
recursion depth (`none` = fuel exhausted, which the Rust original, having
no fuel, never observes on arenas produced by the reader).  Looking up an
absent id returns the id unchanged with an empty trace; a present node is
rendered (prepended to the trace) before its `Reference` children are
visited, and the maximum id visited is returned. -/
def eval (ast : AST) (env : ENV) : Nat → Nat → Option (Nat × List SExp)
  | 0, _ => none
  | f + 1, pc =>
    match List.lookup pc ast.items with
    | none => some (pc, [])
    | some sexp =>
      match evalAtoms (eval ast env f) sexp.children pc with
      | none => none
      | some (m, tr) => some (m, sexp :: tr)

/-- Structural equality on `Atom`, modelled from the spec:
`#[derive(PartialEq)]` on `Atom` (`main.rs` line 18) declares the
intended derived structural equality, but the manual
`impl PartialEq for Atom` (`main.rs` lines 57-59) has an empty body and
conflicts with the derive, so the source defines no working equality.
This is the equality the derive (and the spec) prescribe: same
constructor, equal payloads. -/
def Atom.structEq : Atom → Atom → Bool
  | Atom.Symbol a, Atom.Symbol b => a == b
  | Atom.Keyword a, Atom.Keyword b => a == b
  | Atom.Int a, Atom.Int b => a == b
  | Atom.Float a, Atom.Float b => a == b
  | Atom.String a, Atom.String b => a == b
  | Atom.Boolean a, Atom.Boolean b => a == b
  | Atom.Reference a, Atom.Reference b => a == b
  | _, _ => false

/-- A child atom either is not a reference or references an id strictly
greater than `i`. -/
def atomFwdB (i : Nat) (a : Atom) : Bool :=
  match a with
  | Atom.Reference n => decide (i < n)
  | _ => true

/-- All reference children of `s` point strictly above `i`. -/
def nodeFwdB (i : Nat) (s : SExp) : Bool := s.children.all (atomFwdB i)

/-- The arena invariant of the reader: every committed node's reference
children point to strictly greater ids. -/
def ForwardRefsB (items : List (Nat × SExp)) : Bool := items.all fun p => nodeFwdB p.1 p.2

/-- An upper bound on the keys of an arena. -/
def arenaBound (items : List (Nat × SExp)) : Nat := items.foldr (fun p m => max p.1 m) 0

/-- C1: for the input text `(a (b 1) 2)`, tokenize followed by read
produces an arena with exactly the two entries id 0 (kind exec, children
`[Symbol "a", Reference 1, Int 2]`) and id 1 (kind exec, children
`[Symbol "b", Int 1]`), and eval starting at id 0 renders node 0 before
node 1 (pre-order trace) and returns 1. -/
theorem c1_scenario_b :
    AST.read (AST.tokenize "(a (b 1) 2)".data) =
      .ok ⟨[(0, ⟨"exec", [Atom.Symbol ['a'], Atom.Reference 1, Atom.Int 2]⟩),
            (1, ⟨"exec", [Atom.Symbol ['b'], Atom.Int 1]⟩)]⟩ ∧
    eval ⟨[(0, ⟨"exec", [Atom.Symbol ['a'], Atom.Reference 1, Atom.Int 2]⟩),
           (1, ⟨"exec", [Atom.Symbol ['b'], Atom.Int 1]⟩)]⟩ ENV.new 3 0 =
      some (1, [⟨"exec", [Atom.Symbol ['a'], Atom.Reference 1, Atom.Int 2]⟩,
                ⟨"exec", [Atom.Symbol ['b'], Atom.Int 1]⟩]) := by
  exact ⟨rfl, rfl⟩

/-- C3: the code does not raise any unterminated-container condition.  On
the input `(a (b)` the outer container is still open at end-of-input, yet
`read` returns a partial arena holding only the closed inner container —
the behavior the claim (and the spec's §7) says must not happen. -/
theorem c3_read_silent_partial :
    AST.read (AST.tokenize "(a (b)".data) =
      .ok ⟨[(1, ⟨"exec", [Atom.Symbol ['b']]⟩)]⟩ := by
  exact rfl

/-- C4 counterexample: a container opened by `[` is committed with kind
`"vec"`, not `"vector"`, and renders as `(vec 1)`, not `(vector 1)`. -/
theorem c4_counterexample :
    AST.read (AST.tokenize "[1]".data) = .ok ⟨[(0, ⟨"vec", [Atom.Int 1]⟩)]⟩ ∧
    ("vec" : String) ≠ "vector" ∧
    SExp.display ⟨"vec", [Atom.Int 1]⟩ ≠ "(vector 1)" := by
  refine ⟨rfl, by decide, by decide⟩

/-- C4 (amended): `[` yields kind `vec` (rendering `(vec <children>)`),
`{` yields kind `map`, and `(` yields kind `exec`. -/
theorem c4_kinds_amended :
    SExp.new ['['] = some ⟨"vec", []⟩ ∧
    SExp.new ['{'] = some ⟨"map", []⟩ ∧
    SExp.new ['('] = some ⟨"exec", []⟩ ∧
    AST.read (AST.tokenize "[1]".data) = .ok ⟨[(0, ⟨"vec", [Atom.Int 1]⟩)]⟩ ∧
    SExp.display ⟨"vec", [Atom.Int 1]⟩ = "(vec 1)" := by
  exact ⟨rfl, rfl, rfl, rfl, rfl⟩

/-- C5: structural equality on `Atom` — the equality prescribed by the
spec and by the `derive(PartialEq)` on the type (the manual
`impl PartialEq for Atom` in the source has an empty body, so the source
itself defines no working equality) — holds exactly between atoms with
the same tag and equal payloads, hence is reflexive and usable as a key
equality. -/
theorem c5_structural_equality :
    ∀ a b : Atom, Atom.structEq a b = true ↔ a = b := by
  intro a b
  cases a <;> cases b <;>
    simp [Atom.structEq]

/-- C10: the reader never checks that a closing delimiter matches the
opening delimiter: all three closing tokens act identically on every
reader state, and the mismatched input `(1]` succeeds, committing a node
of kind exec with child `Int 1` under id 0. -/
theorem c10_mismatched_close :
    (∀ st : ReadState, readTok st [')'] = readTok st [']'] ∧
       readTok st [']'] = readTok st ['}']) ∧
    AST.read (AST.tokenize "(1]".data) = .ok ⟨[(0, ⟨"exec", [Atom.Int 1]⟩)]⟩ := by
  constructor
  · intro st
    constructor <;> rfl
  · rfl

/-- A scanned token is well-shaped: nonempty, and either a single
delimiter character or entirely delimiter-free. -/
def scanTokOk (t : Tok) : Prop :=
  t ≠ [] ∧ (isDelimTok t = true ∨ ∀ c ∈ t, isDelimChar c = false)

/-- Two adjacent scanned tokens are separated by a delimiter: at least
one of them is itself a one-character delimiter token. -/
def sepOk (t1 t2 : Tok) : Prop := isDelimTok t1 = true ∨ isDelimTok t2 = true

/-- A one-character token is always well-shaped. -/
theorem singleton_tokOk (c : Char) : scanTokOk [c] := by
  refine ⟨by simp, ?_⟩
  cases hdc : isDelimChar c with
  | false =>
    refine Or.inr ?_
    intro x hx
    simp only [List.mem_singleton] at hx
    subst hx
    exact hdc
  | true => exact Or.inl (by simp [isDelimTok, hdc])

/-- One scanner step keeps every buffered token well-shaped. -/
theorem scanStep_tokOk {acc : List Tok} (hacc : ∀ t ∈ acc, scanTokOk t) (c : Char) :
    ∀ t ∈ scanStep acc c, scanTokOk t := by
  cases acc with
  | nil =>
    intro t ht
    simp only [scanStep, List.mem_singleton] at ht
    subst ht
    exact singleton_tokOk c
  | cons t0 rest =>
    intro t ht
    rw [scanStep] at ht
    split_ifs at ht with h1 h2
    · rcases List.mem_cons.mp ht with rfl | hmem
      · exact singleton_tokOk c
      · exact hacc t hmem
    · rcases List.mem_cons.mp ht with rfl | hmem
      · exact singleton_tokOk c
      · exact hacc t hmem
    · rcases List.mem_cons.mp ht with rfl | hmem
      · have h0 := hacc t0 (List.mem_cons_self t0 rest)
        refine ⟨by simp, Or.inr ?_⟩
        intro x hx
        rcases List.mem_append.mp hx with hx | hx
        · rcases h0.2 with hd | hnd
          · exact absurd hd h1
          · exact hnd x hx
        · simp only [List.mem_singleton] at hx
          subst hx
          exact Bool.eq_false_iff.mpr h2
      · exact hacc t (List.mem_cons_of_mem t0 hmem)

/-- One scanner step keeps adjacent buffered tokens delimiter-separated. -/
theorem scanStep_chain {acc : List Tok} (hacc : ∀ t ∈ acc, scanTokOk t)
    (hch : List.Chain' sepOk acc) (c : Char) : List.Chain' sepOk (scanStep acc c) := by
  cases acc with
  | nil => simp [scanStep]
  | cons t0 rest =>
    rw [scanStep]
    split_ifs with h1 h2
    · rw [List.chain'_cons]
      exact ⟨Or.inr h1, hch⟩
    · rw [List.chain'_cons]
      exact ⟨Or.inl (by simp [isDelimTok, h2]), hch⟩
    · cases rest with
      | nil => simp
      | cons t1 rest' =>
        rw [List.chain'_cons] at hch ⊢
        refine ⟨?_, hch.2⟩
        rcases hch.1 with hd | hd
        · exact absurd hd h1
        · exact Or.inr hd

/-- One scanner step appends exactly the consumed character to the
flattened buffered text. -/
theorem scanStep_flatten (acc : List Tok) (c : Char) :
    (scanStep acc c).reverse.flatten = acc.reverse.flatten ++ [c] := by
  cases acc with
  | nil => simp [scanStep]
  | cons t0 rest =>
    rw [scanStep]
    split_ifs <;> simp [List.flatten_append]

/-- Invariant of the scanning fold of `AST::tokenize`: all buffered
tokens are well-shaped, adjacent ones are delimiter-separated, and they
flatten back to the consumed text. -/
theorem scan_fold_inv (src : List Char) :
    ∀ acc : List Tok, (∀ t ∈ acc, scanTokOk t) → List.Chain' sepOk acc →
      (∀ t ∈ List.foldl scanStep acc src, scanTokOk t) ∧
      List.Chain' sepOk (List.foldl scanStep acc src) ∧
      (List.foldl scanStep acc src).reverse.flatten = acc.reverse.flatten ++ src := by
  induction src with
  | nil =>
    intro acc h1 h2
    exact ⟨h1, h2, by simp⟩
  | cons c src' ih =>
    intro acc h1 h2
    rw [List.foldl_cons]
    obtain ⟨g1, g2, g3⟩ := ih (scanStep acc c) (scanStep_tokOk h1 c) (scanStep_chain h1 h2 c)
    refine ⟨g1, g2, ?_⟩
    rw [g3, scanStep_flatten]
    simp

/-- C8: `tokenize` is total, and on every input the scanned tokens are
each either a single delimiter character (delimiters never merge with
neighbours) or a nonempty delimiter-free run, no two adjacent scanned
tokens are both delimiter-free (runs are maximal), the scanned tokens
concatenate back to the input, and the output drops exactly the tokens
that are a single space, newline or tab. -/
theorem c8_tokenize_spec (src : List Char) :
    (∀ t ∈ scan src, t ≠ [] ∧ (isDelimTok t = true ∨ ∀ c ∈ t, isDelimChar c = false)) ∧
    (scan src).flatten = src ∧
    List.Chain' sepOk (scan src) ∧
    AST.tokenize src = (scan src).filter (fun t => !(isDroppedTok t)) := by
  obtain ⟨g1, g2, g3⟩ := scan_fold_inv src [] (by simp) (by simp)
  refine ⟨?_, ?_, ?_, rfl⟩
  · intro t ht
    exact g1 t (List.mem_reverse.mp ht)
  · simpa using g3
  · exact List.chain'_reverse.mpr (g2.imp fun a b h => Or.symm h)

/-- A node kind actually producible by the reader: `(`, `[` or `{`. -/
def kindOk (s : SExp) : Prop := s._type = "exec" ∨ s._type = "vec" ∨ s._type = "map"

/-- All reference children of `s` point strictly above `i`
(propositional form of `nodeFwdB`). -/
def nodeFwd (i : Nat) (s : SExp) : Prop :=
  ∀ n : Nat, Atom.Reference n ∈ s.children → i < n

/-- `ForwardRefsB` decides exactly the forward-reference property. -/
theorem forwardRefsB_eq_true_iff (items : List (Nat × SExp)) :
    ForwardRefsB items = true ↔ ∀ p ∈ items, nodeFwd p.1 p.2 := by
  unfold ForwardRefsB
  rw [List.all_eq_true]
  constructor
  · intro h p hp n hn
    have := List.all_eq_true.mp (h p hp) (Atom.Reference n) hn
    simpa [atomFwdB] using this
  · intro h p hp
    rw [nodeFwdB, List.all_eq_true]
    intro a ha
    cases a with
    | Reference n => exact decide_eq_true (h p hp n ha)
    | Symbol s => rfl
    | Keyword s => rfl
    | Int v => rfl
    | Float s => rfl
    | String s => rfl
    | Boolean b => rfl

/-- `Atom::infer` never produces a `Reference`: references are inserted
only by the reader at container openings. -/
theorem infer_ne_reference (t : Tok) (n : Nat) : Atom.infer t ≠ Atom.Reference n := by
  unfold Atom.infer
  rcases hp : parseI64 t with _ | v <;> simp only [hp] <;> split_ifs <;> simp

/-- The reader-loop invariant: committed items and open containers only
reference strictly greater ids, all kinds come from `(`/`[`/`{`, and
every reserved id is below the counter. -/
structure StInv (st : ReadState) : Prop where
  items_fwd : ∀ p ∈ st.items, nodeFwd p.1 p.2
  items_kind : ∀ p ∈ st.items, kindOk p.2
  stack : List.Forall₂ nodeFwd st.ids st.sexps
  stack_kind : ∀ s ∈ st.sexps, kindOk s
  ids_lt : ∀ i ∈ st.ids, i < st.id

/-- The initial reader state satisfies the invariant. -/
theorem initState_inv : StInv initState := by
  refine ⟨?_, ?_, ?_, ?_, ?_⟩ <;> simp [initState]

/-- Appending a `Reference` to the innermost open container preserves
the stack relation when the referenced id dominates all reserved ids. -/
theorem stack_pushChild_ref {ids : List Nat} {sexps : List SExp} {idc : Nat}
    (hst : List.Forall₂ nodeFwd ids sexps) (hlt : ∀ i ∈ ids, i < idc) :
    List.Forall₂ nodeFwd ids (pushChild sexps (Atom.Reference idc)) := by
  cases hst with
  | nil => exact List.Forall₂.nil
  | @cons i s ids' sexps' hrel htail =>
    rw [pushChild]
    refine List.Forall₂.cons ?_ htail
    intro n hn
    rcases List.mem_append.mp hn with hmem | hmem
    · exact hrel n hmem
    · simp only [List.mem_singleton, Atom.Reference.injEq] at hmem
      subst hmem
      exact hlt i (List.mem_cons_self i ids')

/-- Appending a non-`Reference` atom to the innermost open container
preserves the stack relation. -/
theorem stack_pushChild_nonref {ids : List Nat} {sexps : List SExp} {a : Atom}
    (hst : List.Forall₂ nodeFwd ids sexps) (ha : ∀ n : Nat, a ≠ Atom.Reference n) :
    List.Forall₂ nodeFwd ids (pushChild sexps a) := by
  cases hst with
  | nil => exact List.Forall₂.nil
  | @cons i s ids' sexps' hrel htail =>
    rw [pushChild]
    refine List.Forall₂.cons ?_ htail
    intro n hn
    rcases List.mem_append.mp hn with hmem | hmem
    · exact hrel n hmem
    · simp only [List.mem_singleton] at hmem
      exact absurd hmem.symm (ha n)

/-- `pushChild` does not change any container's kind. -/
theorem pushChild_kind {sexps : List SExp} {a : Atom}
    (h : ∀ s ∈ sexps, kindOk s) : ∀ s ∈ pushChild sexps a, kindOk s := by
  cases sexps with
  | nil => simp [pushChild]
  | cons s0 rest =>
    intro s hs
    rw [pushChild] at hs
    rcases List.mem_cons.mp hs with rfl | hmem
    · exact h s0 (List.mem_cons_self s0 rest)
    · exact h s (List.mem_cons_of_mem s0 hmem)

/-- Opening a container preserves the invariant. -/
theorem open_state_inv {st : ReadState} (hinv : StInv st) (k : String)
    (hk : k = "exec" ∨ k = "vec" ∨ k = "map") :
    StInv ⟨st.items, (⟨k, []⟩ : SExp) :: pushChild st.sexps (Atom.Reference st.id),
           st.id + 1, st.id :: st.ids⟩ := by
  refine ⟨hinv.items_fwd, hinv.items_kind, ?_, ?_, ?_⟩
  · refine List.Forall₂.cons ?_ (stack_pushChild_ref hinv.stack hinv.ids_lt)
    intro n hn
    simp at hn
  · intro s hs
    rcases List.mem_cons.mp hs with rfl | hmem
    · exact hk
    · exact pushChild_kind hinv.stack_kind s hmem
  · intro i hi
    rcases List.mem_cons.mp hi with rfl | hmem
    · show st.id < st.id + 1
      omega
    · have := hinv.ids_lt i hmem
      show i < st.id + 1
      omega

/-- Closing a container preserves the invariant: the committed pair
inherits the stack relation of the popped node. -/
theorem close_state_inv {st : ReadState} (hinv : StInv st)
    {i : Nat} {ids' : List Nat} {s : SExp} {sexps' : List SExp}
    (hids : st.ids = i :: ids') (hsexps : st.sexps = s :: sexps') :
    StInv ⟨(i, s) :: st.items, sexps', st.id, ids'⟩ := by
  have hst := hinv.stack
  rw [hids, hsexps] at hst
  cases hst with
  | cons hrel htail =>
    refine ⟨?_, ?_, htail, ?_, ?_⟩
    · intro p hp
      rcases List.mem_cons.mp hp with rfl | hmem
      · exact hrel
      · exact hinv.items_fwd p hmem
    · intro p hp
      rcases List.mem_cons.mp hp with rfl | hmem
      · refine hinv.stack_kind s ?_
        rw [hsexps]
        exact List.mem_cons_self s sexps'
      · exact hinv.items_kind p hmem
    · intro x hx
      refine hinv.stack_kind x ?_
      rw [hsexps]
      exact List.mem_cons_of_mem s hx
    · intro j hj
      refine hinv.ids_lt j ?_
      rw [hids]
      exact List.mem_cons_of_mem i hj

/-- Appending an inferred atom preserves the invariant. -/
theorem atom_state_inv {st : ReadState} (hinv : StInv st) (t : Tok) :
    StInv ⟨st.items, pushChild st.sexps (Atom.infer t), st.id, st.ids⟩ := by
  refine ⟨hinv.items_fwd, hinv.items_kind, ?_, pushChild_kind hinv.stack_kind, hinv.ids_lt⟩
  exact stack_pushChild_nonref hinv.stack (fun n => infer_ne_reference t n)

/-- One reader step preserves the invariant. -/
theorem readTok_inv {st st' : ReadState} {t : Tok}
    (hinv : StInv st) (h : readTok st t = .ok st') : StInv st' := by
  unfold readTok at h
  split_ifs at h with h1 h2 h3 h4
  · simp only [Except.ok.injEq] at h
    subst h
    exact hinv
  · simp only [Except.ok.injEq] at h
    subst h
    exact hinv
  · rcases h3 with rfl | rfl | rfl
    · rw [show SExp.new ['('] = some ⟨"exec", []⟩ from rfl] at h
      simp only [Except.ok.injEq] at h
      subst h
      exact open_state_inv hinv "exec" (Or.inl rfl)
    · rw [show SExp.new ['['] = some ⟨"vec", []⟩ from rfl] at h
      simp only [Except.ok.injEq] at h
      subst h
      exact open_state_inv hinv "vec" (Or.inr (Or.inl rfl))
    · rw [show SExp.new ['{'] = some ⟨"map", []⟩ from rfl] at h
      simp only [Except.ok.injEq] at h
      subst h
      exact open_state_inv hinv "map" (Or.inr (Or.inr rfl))
  · cases hids : st.ids with
    | nil =>
      rw [hids] at h
      exact absurd h (by simp)
    | cons i ids' =>
      cases hsexps : st.sexps with
      | nil =>
        rw [hids, hsexps] at h
        exact absurd h (by simp)
      | cons s sexps' =>
        rw [hids, hsexps] at h
        simp only [Except.ok.injEq] at h
        subst h
        exact close_state_inv hinv hids hsexps
  · simp only [Except.ok.injEq] at h
    subst h
    exact atom_state_inv hinv t

/-- The invariant holds after any successful run of the reader loop. -/
theorem readSteps_inv : ∀ (toks : List Tok) {st st' : ReadState},
    StInv st → readSteps toks st = .ok st' → StInv st' := by
  intro toks
  induction toks with
  | nil =>
    intro st st' hinv h
    simp only [readSteps, Except.ok.injEq] at h
    subst h
    exact hinv
  | cons t rest ih =>
    intro st st' hinv h
    simp only [readSteps] at h
    cases hstep : readTok st t with
    | error e =>
      rw [hstep] at h
      exact absurd h (by simp)
    | ok st1 =>
      rw [hstep] at h
      exact ih (readTok_inv hinv hstep) h

/-- C2: every arena produced by `read` is forward-referencing — each
committed node's `Reference` children hold ids strictly greater than the
node's own id, so there are no self-references and no cycles. -/
theorem c2_reference_monotonic (tokens : List Tok) (ast : AST)
    (h : AST.read tokens = .ok ast) : ForwardRefsB ast.items = true := by
  unfold AST.read at h
  cases hs : readSteps tokens initState with
  | error e =>
    rw [hs] at h
    exact absurd h (by simp)
  | ok st =>
    rw [hs] at h
    simp only [Except.ok.injEq] at h
    subst h
    exact (forwardRefsB_eq_true_iff st.items).mpr (readSteps_inv tokens initState_inv hs).items_fwd

/-- C2 witness: the Scenario-B arena is forward-referencing. -/
theorem c2_witness :
    ForwardRefsB [(0, ⟨"exec", [Atom.Symbol ['a'], Atom.Reference 1, Atom.Int 2]⟩),
                  (1, ⟨"exec", [Atom.Symbol ['b'], Atom.Int 1]⟩)] = true :=
  c2_reference_monotonic (AST.tokenize "(a (b 1) 2)".data)
    ⟨[(0, ⟨"exec", [Atom.Symbol ['a'], Atom.Reference 1, Atom.Int 2]⟩),
      (1, ⟨"exec", [Atom.Symbol ['b'], Atom.Int 1]⟩)]⟩ rfl

/-- C9: the tokens `"` and `'` are pure no-ops in the reader — the state
is returned unchanged — and consequently no node of kind `string` or
`list` is ever committed to an arena produced by `read`. -/
theorem c9_quote_noop :
    (∀ st : ReadState, readTok st [dquote] = .ok st ∧ readTok st [squote] = .ok st) ∧
    (∀ (tokens : List Tok) (ast : AST), AST.read tokens = .ok ast →
      ∀ p ∈ ast.items, p.2._type ≠ "string" ∧ p.2._type ≠ "list") := by
  constructor
  · intro st
    exact ⟨rfl, rfl⟩
  · intro tokens ast h p hp
    unfold AST.read at h
    cases hs : readSteps tokens initState with
    | error e =>
      rw [hs] at h
      exact absurd h (by simp)
    | ok st =>
      rw [hs] at h
      simp only [Except.ok.injEq] at h
      subst h
      have hk := (readSteps_inv tokens initState_inv hs).items_kind p hp
      rcases hk with hk | hk | hk <;> rw [hk] <;> exact ⟨by decide, by decide⟩

/-- C9 witness: a quote marker leaves the initial state unchanged, and a
committed node of the arena read from `()` has kind exec, not string. -/
theorem c9_witness :
    readTok initState [dquote] = .ok initState ∧
    ((0, (⟨"exec", []⟩ : SExp)).2._type ≠ "string" ∧
     (0, (⟨"exec", []⟩ : SExp)).2._type ≠ "list") := by
  constructor
  · exact (c9_quote_noop.1 initState).1
  · exact c9_quote_noop.2 [['('], [')']] ⟨[(0, ⟨"exec", []⟩)]⟩ rfl (0, ⟨"exec", []⟩)
      (List.mem_singleton.mpr rfl)

/-- Running the reader loop over a concatenation runs the pieces in
sequence. -/
theorem readSteps_append (xs ys : List Tok) (st : ReadState) :
    readSteps (xs ++ ys) st =
      match readSteps xs st with
      | .error e => .error e
      | .ok st' => readSteps ys st' := by
  induction xs generalizing st with
  | nil => simp [readSteps]
  | cons t rest ih =>
    rw [List.cons_append]
    simp only [readSteps]
    cases readTok st t with
    | error e => rfl
    | ok st1 => exact ih st1

/-- All three closing tokens behave identically: pop both stacks and
commit, or underflow. -/
theorem readTok_close {st : ReadState} {t : Tok}
    (ht : t = [')'] ∨ t = [']'] ∨ t = ['}']) :
    readTok st t =
      match st.ids, st.sexps with
      | i :: ids', s :: sexps' => .ok ⟨(i, s) :: st.items, sexps', st.id, ids'⟩
      | _, _ => .error ReadErr.StackUnderflow := by
  rcases ht with rfl | rfl | rfl <;> rfl

/-- C6: when a closing delimiter is reached with no container open,
`read` fails with StackUnderflow; when a container is open, the closing
token pops the innermost reserved id and the innermost open node and
commits that node into the arena under that id. -/
theorem c6_close_pop (pre rest : List Tok) (t : Tok) (st : ReadState)
    (ht : t = [')'] ∨ t = [']'] ∨ t = ['}'])
    (hpre : readSteps pre initState = .ok st) :
    (st.ids = [] ∨ st.sexps = [] →
      AST.read (pre ++ t :: rest) = .error ReadErr.StackUnderflow) ∧
    (∀ (i : Nat) (ids' : List Nat) (s : SExp) (sexps' : List SExp),
      st.ids = i :: ids' → st.sexps = s :: sexps' →
      readSteps (pre ++ [t]) initState = .ok ⟨(i, s) :: st.items, sexps', st.id, ids'⟩) := by
  constructor
  · intro hempty
    have hfail : readTok st t = .error ReadErr.StackUnderflow := by
      rw [readTok_close ht]
      rcases hempty with h | h
      · rw [h]
      · rw [h]
        cases st.ids <;> rfl
    unfold AST.read
    rw [readSteps_append, hpre]
    simp only [readSteps]
    rw [hfail]
  · intro i ids' s sexps' hids hsexps
    rw [readSteps_append, hpre]
    simp only [readSteps]
    rw [readTok_close ht, hids, hsexps]

/-- C6 witness: a lone `)` underflows, and `)` after `(` commits the
empty exec node under id 0. -/
theorem c6_witness :
    AST.read [[')']] = .error ReadErr.StackUnderflow ∧
    readSteps [['('], [')']] initState = .ok ⟨[(0, ⟨"exec", []⟩)], [], 1, []⟩ := by
  constructor
  · exact (c6_close_pop [] [] [')'] initState (Or.inl rfl) rfl).1 (Or.inl rfl)
  · exact (c6_close_pop [['(']] [] [')'] ⟨[], [⟨"exec", []⟩], 1, [0]⟩ (Or.inl rfl) rfl).2
      0 [] ⟨"exec", []⟩ [] rfl rfl

/-- A successful association-list lookup yields a member pair. -/
theorem mem_of_lookup_eq_some {l : List (Nat × SExp)} {k : Nat} {v : SExp}
    (h : List.lookup k l = some v) : (k, v) ∈ l := by
  obtain ⟨l₁, l₂, rfl, -⟩ := List.lookup_eq_some_iff.mp h
  simp

/-- Every key of an arena is bounded by `arenaBound`. -/
theorem mem_le_arenaBound {items : List (Nat × SExp)} {k : Nat} {v : SExp}
    (h : (k, v) ∈ items) : k ≤ arenaBound items := by
  induction items with
  | nil => simp at h
  | cons p rest ih =>
    rcases List.mem_cons.mp h with hp | hmem
    · have : p.1 = k := by rw [← hp]
      simp only [arenaBound, List.foldr_cons, ← this]
      exact le_max_left _ _
    · have := ih hmem
      simp only [arenaBound, List.foldr_cons]
      exact le_trans this (le_max_right _ _)

/-- The child loop never exhausts fuel when the recursive call succeeds
on every referenced id. -/
theorem evalAtoms_isSome (ev : Nat → Option (Nat × List SExp)) :
    ∀ atoms : List Atom,
      (∀ n : Nat, Atom.Reference n ∈ atoms → (ev n).isSome = true) →
      ∀ maxPc : Nat, (evalAtoms ev atoms maxPc).isSome = true := by
  intro atoms
  induction atoms with
  | nil =>
    intro h maxPc
    simp [evalAtoms]
  | cons a rest ih =>
    intro h maxPc
    have hrest : ∀ m : Nat, Atom.Reference m ∈ rest → (ev m).isSome = true :=
      fun m hm => h m (List.mem_cons_of_mem a hm)
    cases a with
    | Reference n =>
      have hn := h n (List.mem_cons_self _ rest)
      obtain ⟨⟨localMax, tr⟩, hev⟩ := Option.isSome_iff_exists.mp hn
      obtain ⟨⟨m, tr2⟩, h2⟩ := Option.isSome_iff_exists.mp
        (ih hrest (if (if maxPc < n then n else maxPc) < localMax then localMax
                   else if maxPc < n then n else maxPc))
      simp only [evalAtoms, hev, h2]
      rfl
    | Symbol s => simpa only [evalAtoms] using ih hrest maxPc
    | Keyword s => simpa only [evalAtoms] using ih hrest maxPc
    | Int v => simpa only [evalAtoms] using ih hrest maxPc
    | Float s => simpa only [evalAtoms] using ih hrest maxPc
    | String s => simpa only [evalAtoms] using ih hrest maxPc
    | Boolean b => simpa only [evalAtoms] using ih hrest maxPc

/-- On a forward-referencing arena, `eval` never exhausts its fuel once
the fuel plus the start id exceed the largest key by 2. -/
theorem eval_isSome (ast : AST) (env : ENV)
    (hF : ForwardRefsB ast.items = true) :
    ∀ fuel pc : Nat, 1 ≤ fuel → arenaBound ast.items + 2 ≤ fuel + pc →
      (eval ast env fuel pc).isSome = true := by
  intro fuel
  induction fuel with
  | zero =>
    intro pc h1 h2
    omega
  | succ f ih =>
    intro pc h1 h2
    cases hlk : List.lookup pc ast.items with
    | none => simp [eval, hlk]
    | some sexp =>
      have hmem := mem_of_lookup_eq_some hlk
      have hpc : pc ≤ arenaBound ast.items := mem_le_arenaBound hmem
      have hfwd := (forwardRefsB_eq_true_iff ast.items).mp hF (pc, sexp) hmem
      have hchild : ∀ n : Nat, Atom.Reference n ∈ sexp.children →
          (eval ast env f n).isSome = true := by
        intro n hn
        have hlt : pc < n := hfwd n hn
        exact ih n (by omega) (by omega)
      obtain ⟨⟨m, tr⟩, hsome⟩ := Option.isSome_iff_exists.mp
        (evalAtoms_isSome (eval ast env f) sexp.children hchild pc)
      simp [eval, hlk, hsome]

/-- C7: on every arena satisfying the reader's forward-reference
invariant, every environment and every id, `eval` returns (the fuel
bound `arenaBound + 2` is never exhausted); and whenever the id is
absent from the arena it returns that id unchanged with an empty
rendering trace. -/
theorem c7_eval_total (ast : AST) (env : ENV) (fuel pc : Nat)
    (hF : ForwardRefsB ast.items = true)
    (hfuel : arenaBound ast.items + 2 ≤ fuel) :
    (eval ast env fuel pc).isSome = true ∧
    (List.lookup pc ast.items = none → eval ast env fuel pc = some (pc, [])) := by
  constructor
  · exact eval_isSome ast env hF fuel pc (by omega) (by omega)
  · intro hlk
    cases fuel with
    | zero => omega
    | succ f => simp [eval, hlk]

/-- C7 witness: on a concrete two-node arena, eval is defined, and at
the absent id 5 it returns `(5, [])` with no rendering. -/
theorem c7_witness :
    (eval ⟨[(0, ⟨"exec", [Atom.Reference 1]⟩), (1, ⟨"exec", []⟩)]⟩ ENV.new 3 5).isSome = true ∧
    eval ⟨[(0, ⟨"exec", [Atom.Reference 1]⟩), (1, ⟨"exec", []⟩)]⟩ ENV.new 3 5 = some (5, []) := by
  have h := c7_eval_total ⟨[(0, ⟨"exec", [Atom.Reference 1]⟩), (1, ⟨"exec", []⟩)]⟩
    ENV.new 3 5 (by decide) (by decide)
  exact ⟨h.1, h.2 (by decide)⟩
